import Mathlib

/-!
# Verification of the pp-crs-civilworks pipeline

Shallow embedding of the three core scripts of the repository:

* clean_data.py       — buyer-name canonicalization and financial cleaning
* pqe_engine.py       — carbon-risk screening engine
* ingest/contracts_finder.py — paginated ingestion with retry and dedup

Modelling conventions:

* Python strings are modelled through List Char; all inputs of interest are
  ASCII, so Char.toLower, Char.toUpper, Char.isDigit faithfully model the
  Python methods on the strings that actually occur.
* Python floats are modelled as rationals (ℚ).  Every concrete value appearing
  in the verified properties (0.75, 1.25, 4999.5, the thresholds, the worked
  examples) is exactly representable in binary floating point, so the rational
  model agrees with the float computation at those points.
* pandas NaN cells are modelled as Option.none.
* Raising an exception (RuntimeError in safe_get) is modelled as an Option.none
  result in an explicit trace structure.
-/

namespace CivilWorks

/-! ## Python string primitives -/

/-- Python whitespace class (the characters of the ASCII part of the regex
class \s, also used by str.strip and str.split). -/
def isSpace (c : Char) : Bool :=
  c == ' ' || c == '\t' || c == '\n' || c == '\r' || c == '\x0b' || c == '\x0c'

/-- Python regex word character (ASCII part of the class \w). -/
def isWordChar (c : Char) : Bool :=
  c.isAlphanum || c == '_'

/-- Python str.strip(): remove leading and trailing whitespace. -/
def pyStrip (cs : List Char) : List Char :=
  ((cs.dropWhile isSpace).reverse.dropWhile isSpace).reverse

/-- Lower-case a string character-wise (Python str.lower on ASCII input). -/
def pyLowerS (s : String) : String :=
  String.mk (s.toList.map Char.toLower)

/-- Upper-case a string character-wise (Python str.upper on ASCII input). -/
def pyUpperS (s : String) : String :=
  String.mk (s.toList.map Char.toUpper)

/-- Accumulator pass of pyWords. -/
def pyWordsAux (cur : List Char) : List Char → List (List Char)
  | [] => if cur.isEmpty then [] else [cur.reverse]
  | c :: cs =>
    if isSpace c then
      if cur.isEmpty then pyWordsAux [] cs else cur.reverse :: pyWordsAux [] cs
    else pyWordsAux (c :: cur) cs

/-- Python str.split() with no argument: split on whitespace runs, dropping
empty words. -/
def pyWords (cs : List Char) : List (List Char) :=
  pyWordsAux [] cs

/-- Accumulator pass of collapseWs (the flag records whether we are inside a
whitespace run that has already emitted its single space). -/
def collapseWsAux : Bool → List Char → List Char
  | _, [] => []
  | inRun, c :: cs =>
    if isSpace c then
      if inRun then collapseWsAux true cs else ' ' :: collapseWsAux true cs
    else c :: collapseWsAux false cs

/-- re.sub of the regex of one or more whitespace characters by a single
space. -/
def collapseWs (cs : List Char) : List Char :=
  collapseWsAux false cs

/-- Python str.split on the pipe character: split at every occurrence,
keeping empty pieces (the whole string is one piece when no pipe occurs). -/
def splitPipe : List Char → List (List Char)
  | [] => [[]]
  | c :: cs =>
    if c == '|' then [] :: splitPipe cs
    else
      match splitPipe cs with
      | w :: ws => (c :: w) :: ws
      | [] => [[c]]

/-- Python substring membership test (the operator in on strings), over char
lists. -/
def containsSub (text pat : List Char) : Bool :=
  match text with
  | [] => pat.isEmpty
  | _ :: rest => pat.isPrefixOf text || containsSub rest pat

/-- Does a word-boundary (regex \b) hold between a just-matched final
character and the remainder of the string? -/
def boundaryAfter (last : Char) (rest : List Char) : Bool :=
  match rest with
  | [] => isWordChar last
  | c :: _ => isWordChar last != isWordChar c

/-- Does a word-boundary (regex \b) hold before the current position, given
the previous character (none at the very start)?  All the literals we
substitute start with a word character, so the boundary holds exactly when the
previous character is absent or is not a word character. -/
def boundaryBefore (prev : Option Char) : Bool :=
  match prev with
  | none => true
  | some c => !(isWordChar c)

/-- Try the regex alternatives in priority order at the current position;
on success return the last character of the matched literal and the rest of
the input after the match (the trailing word boundary is checked, and on its
failure the next alternative is tried, exactly as the regex engine
backtracks). -/
def tryAlts (alts : List (List Char)) (cs : List Char) : Option (Char × List Char) :=
  match alts with
  | [] => none
  | a :: more =>
    if a.isPrefixOf cs then
      match a.getLast? with
      | some lc =>
        let rest := cs.drop a.length
        if boundaryAfter lc rest then some (lc, rest) else tryAlts more cs
      | none => tryAlts more cs
    else tryAlts more cs

/-- One re.sub pass for a pattern of the shape word-boundary, alternation of
literals, word-boundary.  Scans left to right; a replacement does not get
rescanned; boundary checks read the original neighbourhood.  The fuel starts
at length + 1 and every step consumes at least one input character, so the
fuel never runs out on the literal sets used below (which are all
nonempty). -/
def substAux (alts : List (List Char)) (repl : List Char) :
    Nat → Option Char → List Char → List Char
  | 0, _, cs => cs
  | _ + 1, _, [] => []
  | fuel + 1, prev, c :: cs =>
    if boundaryBefore prev then
      match tryAlts alts (c :: cs) with
      | some (lc, rest) => repl ++ substAux alts repl fuel (some lc) rest
      | none => c :: substAux alts repl fuel (some c) cs
    else c :: substAux alts repl fuel (some c) cs

/-- re.sub of a word-bounded alternation of literals by a fixed
replacement. -/
def pySub (alts : List (List Char)) (repl : List Char) (cs : List Char) : List Char :=
  substAux alts repl (cs.length + 1) none cs

/-! ## clean_data.py — normalization and the canonical buyer map -/

/-- basic_normalize of clean_data.py: strip, lower, expand the fixed
abbreviation set with word-bounded regexes (the alternations are listed in the
priority order the regex engine uses: the dotted literal first, since the
optional dot is greedy), replace the ampersand by the word and, collapse
whitespace runs. -/
def basicNormalize (s : String) : String :=
  let cs := (pyStrip s.toList).map Char.toLower
  let cs := pySub ["ltd.".toList, "ltd".toList, "limited".toList] "limited".toList cs
  let cs := pySub ["plc.".toList, "plc".toList] "plc".toList cs
  let cs := pySub ["co.".toList, "co".toList] "company".toList cs
  let cs := pySub ["gov.".toList, "gov".toList, "govt".toList] "government".toList cs
  let cs := cs.foldr (fun c acc => if c == '&' then "and".toList ++ acc else c :: acc) []
  String.mk (collapseWs cs)

/-- acronym of clean_data.py: first character of every word, upper-cased. -/
def acronym (s : String) : String :=
  String.mk (((pyWords s.toList).filterMap List.head?).map Char.toUpper)

/-- The clustering key of build_canonical_map: the acronym of the normalized
name when it has more than one word, else the upper-cased normalized name. -/
def clusterKey (name : String) : String :=
  let norm := basicNormalize name
  if 1 < (pyWords norm.toList).length then acronym norm
  else String.mk (norm.toList.map Char.toUpper)

/-- The acronym-form test of build_canonical_map: the variant with spaces
removed and upper-cased. -/
def stripSpacesUpper (v : String) : String :=
  String.mk ((v.toList.filter (fun c => !(c == ' '))).map Char.toUpper)

/-- pandas Series.unique: first-occurrence-ordered deduplication
(accumulator pass). -/
def uniqueFirstAux (seen : List String) : List String → List String
  | [] => []
  | x :: xs =>
    if x ∈ seen then uniqueFirstAux seen xs
    else x :: uniqueFirstAux (x :: seen) xs

/-- pandas Series.unique: first-occurrence-ordered deduplication. -/
def uniqueFirst (l : List String) : List String :=
  uniqueFirstAux [] l

/-- defaultdict(list) insertion: append the name to the bucket of its key,
creating the bucket at the end on first use (dict insertion order). -/
def insertCluster : List (String × List String) → String → String → List (String × List String)
  | [], key, name => [(key, [name])]
  | (k, vs) :: rest, key, name =>
    if k = key then (k, vs ++ [name]) :: rest
    else (k, vs) :: insertCluster rest key name

/-- Fold of the clustering loop of build_canonical_map. -/
def clustersAux : List (String × List String) → List String → List (String × List String)
  | acc, [] => acc
  | acc, n :: ns => clustersAux (insertCluster acc (clusterKey n) n) ns

/-- The clusters of build_canonical_map: the distinct non-null raw names
(first-occurrence order) grouped by clusterKey. -/
def clusters (names : List (Option String)) : List (String × List String) :=
  clustersAux [] (uniqueFirst (names.filterMap id))

/-- Counter(variants).most_common(1)[0][0]: the element of maximal
multiplicity, ties resolved in favour of the earlier first occurrence (Python
Counter preserves first-insertion order and sorted is stable).  The empty case
returns the empty string; it is unreachable from buildCanonicalMap, where
every cluster is created nonempty (Python would raise IndexError there). -/
def mostCommon (variants : List String) : String :=
  match uniqueFirst variants with
  | [] => ""
  | d :: ds =>
    ds.foldl (fun best x => if variants.count best < variants.count x then x else best) d

/-- Canonical choice of build_canonical_map for one cluster: the first variant
whose spaces-stripped upper-casing equals the key, else the most common
variant. -/
def canonicalOf (key : String) (variants : List String) : String :=
  match variants.filter (fun v => stripSpacesUpper v = key) with
  | m :: _ => m
  | [] => mostCommon variants

/-- build_canonical_map of clean_data.py: one (raw, canonical) row per variant
of every cluster, in cluster and variant order. -/
def buildCanonicalMap (names : List (Option String)) : List (String × String) :=
  (clusters names).foldr
    (fun kv acc => kv.2.map (fun v => (v, canonicalOf kv.1 kv.2)) ++ acc) []

/-- The occurrences (with multiplicity) of the input name series that fall
into the cluster of a given key.  This is the reading of the phrase, the names
in that cluster, under which frequency is meaningful. -/
def clusterNames (names : List (Option String)) (key : String) : List String :=
  (names.filterMap id).filter (fun n => clusterKey n = key)

/-! ## Currency parsing (clean_currency of pqe_engine.py, clean_financials of
clean_data.py) -/

/-- Value of a nonempty digit list. -/
def natFromDigits (cs : List Char) : Nat :=
  cs.foldl (fun n c => n * 10 + (c.toNat - '0'.toNat)) 0

/-- Python float() applied to a string that consists of digits and dots only
(the residue of the regex strip): defined exactly on the strings with at most
one dot and at least one digit.  Returns the mantissa (the digits with the
dot removed) and the number of fractional digits. -/
def parseParts (cs : List Char) : Option (Nat × Nat) :=
  if cs.isEmpty then none
  else if cs.count '.' = 0 then some (natFromDigits cs, 0)
  else if cs.count '.' = 1 then
    let intPart := cs.takeWhile (fun c => !(c == '.'))
    let fracPart := (cs.dropWhile (fun c => !(c == '.'))).drop 1
    if (intPart ++ fracPart).isEmpty then none
    else some (natFromDigits (intPart ++ fracPart), fracPart.length)
  else none

/-- The parsed value as a rational (floats are modelled as exact
rationals). -/
def parseDecimal (cs : List Char) : Option ℚ :=
  (parseParts cs).map (fun p => (p.1 : ℚ) / (10 : ℚ) ^ p.2)

/-- The character filter of the regex that strips everything but digits and
the decimal point. -/
def keepNumeric (s : String) : List Char :=
  s.toList.filter (fun c => c.isDigit || c == '.')

/-- clean_currency of pqe_engine.py: strip non-numeric characters, parse,
and resolve any failure (empty residue, malformed number) to 0.0. -/
def cleanCurrency (s : String) : ℚ :=
  (parseDecimal (keepNumeric s)).getD 0

/-- clean_financials of clean_data.py: pandas NaN resolves to 0.0, otherwise
identical stripping and parsing with failures resolving to 0.0. -/
def cleanFinancials (val : Option String) : ℚ :=
  match val with
  | none => 0
  | some s => cleanCurrency s

/-! ## pqe_engine.py — material matching and the risk engine -/

/-- One row of the material reference table.  price models the parsed float
of the composite_price_gbp_per_tonne column and factor the parsed
carbon_factor_kgco2e_per_tonne column (a missing or unparsable cell parses to
0, which the engine then rejects as invalid). -/
structure Material where
  materialId : String
  materialName : String
  keywords : String
  price : ℚ
  factor : ℚ
deriving DecidableEq

/-- The keyword list of a reference row: split the raw cell on the pipe,
strip and lower each piece, drop empties. -/
def keywordsOf (m : Material) : List String :=
  ((splitPipe m.keywords.toList).map
    (fun k => String.mk ((pyStrip k).map Char.toLower))).filter (fun k => !(k == ""))

/-- Does the row match the (already lower-cased) text: some keyword is
nonempty and a substring of the text. -/
def rowMatchesB (t : String) (m : Material) : Bool :=
  (keywordsOf m).any (fun k => !(k == "") && containsSub t.toList k.toList)

/-- The sentinel test of the scan loop of detect_material: the upper-cased
material_id equals MAT_GEN. -/
def isGen (m : Material) : Bool :=
  pyUpperS m.materialId == "MAT_GEN"

/-- The sentinel test of the fallback lookup of detect_material: the raw
material_id equals MAT_GEN (note: no upper-casing here, unlike the scan). -/
def isGenExact (m : Material) : Bool :=
  m.materialId == "MAT_GEN"

/-- The scan loop of detect_material: rows in table order, skipping sentinel
rows, first keyword hit wins. -/
def detectScan (t : String) : List Material → Option Material
  | [] => none
  | m :: rest =>
    if isGen m then detectScan t rest
    else if rowMatchesB t m then some m
    else detectScan t rest

/-- detect_material of pqe_engine.py: lower-case the text, scan, and on a
miss fall back to the first row whose raw material_id is MAT_GEN, else
none. -/
def detectMaterial (text : String) (ref : List Material) : Option Material :=
  match detectScan (pyLowerS text) ref with
  | some m => some m
  | none => (ref.filter isGenExact).head?

/-- The matcher as the specification words it: scan the non-sentinel rows in
table order and return the first row with a keyword substring hit against the
lower-cased text.  Compared against detectMaterial in claim C5. -/
def specFirstMatch (text : String) (ref : List Material) : Option Material :=
  (ref.filter (fun m => !(isGenExact m))).find? (fun m => rowMatchesB (pyLowerS text) m)

/-- MIN_SPEND_GBP of pqe_engine.py. -/
def MIN_SPEND : ℚ := 5000

/-- Round-half-to-even to an integer (Python round on exactly representable
values). -/
def roundHalfEven (q : ℚ) : ℤ :=
  let f := ⌊q⌋
  let r := q - f
  if r < 1/2 then f
  else if 1/2 < r then f + 1
  else if Even f then f else f + 1

/-- Python round(x, 2), on the exact rational model. -/
def round2 (q : ℚ) : ℚ :=
  (roundHalfEven (q * 100) : ℚ) / 100

/-- The risk-tier ladder of run_pqe_engine (applied to the unrounded CO2e
estimate). -/
def riskTier (co2e : ℚ) : String :=
  if 1000 ≤ co2e then "CRITICAL"
  else if 250 ≤ co2e then "HIGH"
  else if 50 ≤ co2e then "MEDIUM"
  else "LOW"

/-- One input contract row of the cleaned table, restricted to the columns the
engine reads (all remaining columns are carried through untouched by the
source and are irrelevant to the verified properties). -/
structure Contract where
  title : String
  description : String
  valueAmount : String
deriving DecidableEq

/-- One output row of the engine: the status column plus the derived columns
(none models an absent column for the skip statuses; the carried-through
contract columns are omitted as above). -/
structure RiskRecord where
  pqeStatus : String
  estTonnes : Option ℚ
  estCo2e : Option ℚ
  rangeLow : Option ℚ
  rangeHigh : Option ℚ
  riskCategory : Option String
  refPrice : Option ℚ
  refFactor : Option ℚ
deriving DecidableEq

/-- The per-contract body of the loop of run_pqe_engine. -/
def processContract (materials : List Material) (c : Contract) : RiskRecord :=
  let fullText := c.title ++ " " ++ c.description
  let spend := cleanCurrency c.valueAmount
  if spend < MIN_SPEND then
    ⟨"SKIPPED_LOW_VALUE", none, none, none, none, none, none, none⟩
  else
    match detectMaterial fullText materials with
    | none => ⟨"SKIPPED_NO_REF", none, none, none, none, none, none, none⟩
    | some m =>
      if m.price ≤ 0 ∨ m.factor ≤ 0 then
        ⟨"SKIPPED_INVALID_REF", none, none, none, none, none, some m.price, some m.factor⟩
      else
        let estTonnes := spend / m.price
        let estCo2e := estTonnes * m.factor / 1000
        ⟨"CALCULATED", some (round2 estTonnes), some (round2 estCo2e),
          some (round2 (estCo2e * (3/4))), some (round2 (estCo2e * (5/4))),
          some (riskTier estCo2e), none, none⟩

/-- The sort key of the final ordering: est_co2e_tonnes with missing values
filled by -1. -/
def keyOf (r : RiskRecord) : ℚ :=
  r.estCo2e.getD (-1)

/-- The descending-key order used by sort_values(ascending=False) on the
helper column. -/
def pqeOrder (a b : RiskRecord) : Prop :=
  keyOf b ≤ keyOf a

instance : DecidableRel pqeOrder := fun a b =>
  inferInstanceAs (Decidable (keyOf b ≤ keyOf a))

instance : IsTotal RiskRecord pqeOrder :=
  ⟨fun a b => (le_total (keyOf b) (keyOf a)).imp id id⟩

instance : IsTrans RiskRecord pqeOrder :=
  ⟨fun _ _ _ hab hbc => le_trans hbc hab⟩

/-- run_pqe_engine: process every contract in order, then sort by descending
CO2e estimate with missing values filled by -1.  (pandas sorts only when the
column exists, i.e. when at least one row was CALCULATED; when no row was, all
keys are equal and the sort below is the identity, matching the skipped
sort.)  Only the ordering of the result is asserted by the claims, not the
relative order of equal keys, which pandas does not guarantee either. -/
def runPqeEngine (materials : List Material) (contracts : List Contract) : List RiskRecord :=
  List.insertionSort pqeOrder (contracts.map (processContract materials))

/-! ## clean_data.py run(): the cleaned contract table -/

/-- One row of the strict input table, restricted to the columns the cleaning
of the financials reads (the buyer rewrite touches neither ocid nor
value_amount and is irrelevant to claim C10). -/
structure CsvRow where
  ocid : String
  valueAmount : Option String
deriving DecidableEq

/-- A row after value parsing. -/
structure CleanRow where
  ocid : String
  valueAmount : ℚ
deriving DecidableEq

/-- pandas drop_duplicates(subset=ocid): keep the first row of every ocid. -/
def dedupByOcidAux (seen : List String) : List CleanRow → List CleanRow
  | [] => []
  | r :: rs =>
    if r.ocid ∈ seen then dedupByOcidAux seen rs
    else r :: dedupByOcidAux (r.ocid :: seen) rs

/-- The value pipeline of run() in clean_data.py: parse value_amount with
clean_financials, drop duplicate ocids (first kept), keep only rows with a
strictly positive parsed value. -/
def cleanRun (rows : List CsvRow) : List CleanRow :=
  (dedupByOcidAux [] (rows.map (fun r => ⟨r.ocid, cleanFinancials r.valueAmount⟩))).filter
    (fun r => decide (0 < r.valueAmount))

/-! ## ingest/contracts_finder.py — retry handler and ingestion loop -/

/-- MAX_RETRIES of contracts_finder.py. -/
def MAX_RETRIES : Nat := 5

/-- Observable behaviour of one safe_get call: the returned response if any
(none models the final RuntimeError), the number of GET attempts made, and the
seconds slept after each failed attempt, in order. -/
structure SafeGetTrace (α : Type) where
  result : Option α
  attemptsMade : Nat
  sleeps : List Nat
deriving DecidableEq

/-- The retry loop of safe_get, over an abstract attempt oracle: outcome i is
the response of attempt number i + 1, or none when that attempt raises a
RequestException.  Counts down the remaining attempts structurally. -/
def safeGetAux {α : Type} (outcome : Nat → Option α) (backoff : Nat) :
    Nat → Nat → SafeGetTrace α
  | 0, _ => ⟨none, 0, []⟩
  | n + 1, i =>
    match outcome i with
    | some r => ⟨some r, 1, []⟩
    | none =>
      let t := safeGetAux outcome backoff n (i + 1)
      ⟨t.result, t.attemptsMade + 1, backoff * (i + 1) :: t.sleeps⟩

/-- safe_get of contracts_finder.py (the url and params are abstracted into
the attempt oracle): retry with linear backoff, raise after exhausting the
attempts. -/
def safeGet {α : Type} (outcome : Nat → Option α) (backoff retries : Nat) : SafeGetTrace α :=
  safeGetAux outcome backoff retries 0

/-- normalize_cpv of contracts_finder.py: a falsy raw value (absent or the
empty string) and a digit-free value normalize to UNKNOWN, anything else to
its digits. -/
def normalizeCpv : Option String → String
  | none => "UNKNOWN"
  | some s =>
    if s = "" then "UNKNOWN"
    else if s.toList.filter Char.isDigit = [] then "UNKNOWN"
    else String.mk (s.toList.filter Char.isDigit)

/-- The shape of the classification field of a tender: a dict with an
optional id, or a list whose entries model dicts with an optional id (a
non-dict entry or a dict without id is modelled as none). -/
inductive ClassField
  | dictC (id : Option String)
  | listC (ids : List (Option String))
deriving DecidableEq

/-- One release of a page, restricted to the fields the loop reads.
tenderClass models tender.get(classification) with a missing or falsy tender
collapsed to none; releaseClass models the release-level classification block
(some id exactly when that block is a dict); tenderValue and releaseValue
model the corresponding value blocks when they are dicts with a non-null
amount, with the currency default GBP already resolved. -/
structure Release where
  ocid : Option String
  tenderClass : Option ClassField
  releaseClass : Option (Option String)
  tenderValue : Option (ℚ × String)
  releaseValue : Option (ℚ × String)
deriving DecidableEq

/-- One accumulated record, restricted to the fields the claims are about
(the remaining columns are copied from the release without further logic). -/
structure Record where
  ocid : String
  cpv : String
  valueAmount : ℚ
  currency : String
deriving DecidableEq

/-- The release-level fallback branch of extract_cpv. -/
def releaseFallback (r : Release) : String :=
  match r.releaseClass with
  | some id => normalizeCpv id
  | none => "UNKNOWN"

/-- extract_cpv of contracts_finder.py: a dict classification wins outright;
a list classification yields the first entry with a truthy id, else falls
through to the release-level block; no classification falls through too. -/
def extractCpv (r : Release) : String :=
  match r.tenderClass with
  | some (ClassField.dictC id) => normalizeCpv id
  | some (ClassField.listC ids) =>
    match ids.find? (fun i => match i with | some s => !(s == "") | none => false) with
    | some (some s) => normalizeCpv (some s)
    | _ => releaseFallback r
  | none => releaseFallback r

/-- extract_value of contracts_finder.py: the tender value block wins, then
the release value block, then zero GBP. -/
def extractValue (r : Release) : ℚ × String :=
  match r.tenderValue with
  | some v => v
  | none =>
    match r.releaseValue with
    | some v => v
    | none => (0, "GBP")

/-- CIVIL_WORKS_CPVS of contracts_finder.py. -/
def CIVIL_WORKS_CPVS : List String := ["45", "71"]

/-- Python str.startswith over the list model. -/
def startsWithL (p s : String) : Bool :=
  p.toList.isPrefixOf s.toList

/-- The accepted-prefix test of the ingestion loop. -/
def cpvAccepted (cpv : String) : Bool :=
  CIVIL_WORKS_CPVS.any (fun p => startsWithL p cpv)

/-- The body of the per-release loop of fetch_2025_construction_contracts:
state is the seen-ocid set (as a list) and the accumulated record list.  A
falsy or already-seen ocid, an UNKNOWN code and a non-matching prefix all skip
the release; otherwise the record is appended and its ocid marked seen. -/
def stepRelease (st : List String × List Record) (r : Release) :
    List String × List Record :=
  match r.ocid with
  | none => st
  | some o =>
    if o = "" then st
    else if o ∈ st.1 then st
    else
      let cpv := extractCpv r
      if cpv = "UNKNOWN" then st
      else if !(cpvAccepted cpv) then st
      else
        let v := extractValue r
        (o :: st.1, st.2 ++ [⟨o, cpv, v.1, v.2⟩])

/-- The state after folding the pages of one run in page order. -/
def ingestState (pages : List (List Release)) : List String × List Record :=
  pages.foldl (fun st page => page.foldl stepRelease st) ([], [])

/-- The records accumulated by one ingestion run over the given pages (the
pagination mechanics, rate-limit sleep and HTTP status handling decide only
which pages are seen, not how their releases are folded). -/
def runIngest (pages : List (List Release)) : List Record :=
  (ingestState pages).2

/-! ## Lemmas on the canonicalization -/

lemma uniqueFirstAux_nodup :
    ∀ (l seen : List String),
      (uniqueFirstAux seen l).Nodup ∧ ∀ x ∈ uniqueFirstAux seen l, x ∉ seen := by
  intro l
  induction l with
  | nil => intro seen; simp [uniqueFirstAux]
  | cons x xs ih =>
    intro seen
    by_cases hx : x ∈ seen
    · simpa [uniqueFirstAux, hx] using ih seen
    · have h2 := ih (x :: seen)
      refine ⟨?_, ?_⟩
      · rw [uniqueFirstAux, if_neg hx]
        refine List.nodup_cons.mpr ⟨?_, h2.1⟩
        intro hmem
        exact (h2.2 x hmem) (List.mem_cons_self x seen)
      · intro y hy
        rw [uniqueFirstAux, if_neg hx] at hy
        rcases List.mem_cons.mp hy with rfl | hy
        · exact hx
        · intro hseen
          exact (h2.2 y hy) (List.mem_cons_of_mem _ hseen)

lemma uniqueFirst_nodup (l : List String) : (uniqueFirst l).Nodup :=
  (uniqueFirstAux_nodup l []).1

lemma uniqueFirstAux_eq_self :
    ∀ (l seen : List String), l.Nodup → (∀ x ∈ l, x ∉ seen) →
      uniqueFirstAux seen l = l := by
  intro l
  induction l with
  | nil => intro seen _ _; rfl
  | cons x xs ih =>
    intro seen hnd hs
    have hx : x ∉ seen := hs x (List.mem_cons_self x xs)
    rw [uniqueFirstAux, if_neg hx]
    congr 1
    refine ih (x :: seen) (List.Nodup.of_cons hnd) ?_
    intro y hy
    intro hmem
    rcases List.mem_cons.mp hmem with rfl | hmem
    · exact (List.nodup_cons.mp hnd).1 hy
    · exact hs y (List.mem_cons_of_mem _ hy) hmem

lemma uniqueFirst_eq_self {l : List String} (h : l.Nodup) : uniqueFirst l = l :=
  uniqueFirstAux_eq_self l [] h (by simp)

lemma insertCluster_mem :
    ∀ (acc : List (String × List String)) (key name : String)
      (k : String) (vs : List String),
      (k, vs) ∈ insertCluster acc key name →
      (k, vs) ∈ acc ∨
        (k = key ∧ ((∃ vs₀, (k, vs₀) ∈ acc ∧ vs = vs₀ ++ [name]) ∨ vs = [name])) := by
  intro acc
  induction acc with
  | nil =>
    intro key name k vs hm
    simp [insertCluster] at hm
    exact Or.inr ⟨hm.1, Or.inr hm.2⟩
  | cons p rest ih =>
    intro key name k vs hm
    obtain ⟨k₁, vs₁⟩ := p
    by_cases hk : k₁ = key
    · rw [insertCluster, if_pos hk] at hm
      rcases List.mem_cons.mp hm with he | hm
      · have hkk : k = k₁ := congrArg Prod.fst he
        have hvv : vs = vs₁ ++ [name] := congrArg Prod.snd he
        subst hkk
        exact Or.inr ⟨hk, Or.inl ⟨vs₁, List.mem_cons_self _ _, hvv⟩⟩
      · exact Or.inl (List.mem_cons_of_mem _ hm)
    · rw [insertCluster, if_neg hk] at hm
      rcases List.mem_cons.mp hm with he | hm
      · exact Or.inl (he ▸ List.mem_cons_self _ _)
      · rcases ih key name k vs hm with h | ⟨h1, h2⟩
        · exact Or.inl (List.mem_cons_of_mem _ h)
        · refine Or.inr ⟨h1, ?_⟩
          rcases h2 with ⟨vs₀, hv0, hv⟩ | hv
          · exact Or.inl ⟨vs₀, List.mem_cons_of_mem _ hv0, hv⟩
          · exact Or.inr hv

lemma clustersAux_nodup :
    ∀ (l : List String) (acc : List (String × List String)),
      l.Nodup →
      (∀ k vs, (k, vs) ∈ acc → vs.Nodup ∧ ∀ v ∈ vs, v ∉ l) →
      ∀ k vs, (k, vs) ∈ clustersAux acc l → vs.Nodup := by
  intro l
  induction l with
  | nil => intro acc _ hacc k vs hm; exact (hacc k vs hm).1
  | cons n ns ih =>
    intro acc hnd hacc k vs hm
    refine ih (insertCluster acc (clusterKey n) n) (List.Nodup.of_cons hnd) ?_ k vs hm
    intro k' vs' hm'
    rcases insertCluster_mem acc (clusterKey n) n k' vs' hm' with h | ⟨_, h⟩
    · obtain ⟨h1, h2⟩ := hacc k' vs' h
      exact ⟨h1, fun v hv hvns => h2 v hv (List.mem_cons_of_mem _ hvns)⟩
    · rcases h with ⟨vs₀, hmem, rfl⟩ | rfl
      · obtain ⟨h1, h2⟩ := hacc k' vs₀ hmem
        have hn : n ∉ vs₀ := fun hv => h2 n hv (List.mem_cons_self n ns)
        refine ⟨?_, ?_⟩
        · rw [List.nodup_append]
          exact ⟨h1, List.nodup_singleton n, fun v hv hv1 => by
            rcases List.mem_singleton.mp hv1 with rfl
            exact hn hv⟩
        · intro v hv
          rcases List.mem_append.mp hv with hv | hv
          · exact fun hns => h2 v hv (List.mem_cons_of_mem _ hns)
          · rcases List.mem_singleton.mp hv with rfl
            exact (List.nodup_cons.mp hnd).1
      · refine ⟨List.nodup_singleton n, ?_⟩
        intro v hv
        rcases List.mem_singleton.mp hv with rfl
        exact (List.nodup_cons.mp hnd).1

lemma clusters_variants_nodup (names : List (Option String)) {k : String}
    {vs : List String} (h : (k, vs) ∈ clusters names) : vs.Nodup :=
  clustersAux_nodup _ [] (uniqueFirst_nodup _) (by simp) k vs h

lemma foldl_stays {f : String → String → String} :
    ∀ (ds : List String) (v : String), (∀ x ∈ ds, f v x = v) → ds.foldl f v = v := by
  intro ds
  induction ds with
  | nil => intro v _; rfl
  | cons d ds ih =>
    intro v h
    rw [List.foldl_cons, h d (List.mem_cons_self d ds)]
    exact ih v (fun x hx => h x (List.mem_cons_of_mem _ hx))

lemma mostCommon_of_nodup {v : String} {vs : List String} (h : (v :: vs).Nodup) :
    mostCommon (v :: vs) = v := by
  have hu : uniqueFirst (v :: vs) = v :: vs := uniqueFirst_eq_self h
  have hcount : ∀ x ∈ vs, ¬ ((v :: vs).count v < (v :: vs).count x) := by
    intro x hx
    rw [List.count_eq_one_of_mem h (List.mem_cons_self v vs),
      List.count_eq_one_of_mem h (List.mem_cons_of_mem _ hx)]
    omega
  simp only [mostCommon, hu]
  exact foldl_stays vs v (fun x hx => if_neg (hcount x hx))

/-! ## Claims C1 and C2 — canonical choice within a cluster -/

/-- Claim C1, counterexample.  On the name series with the spelling
Acme Corp once and ACME CORP twice, both spellings share the cluster key AC,
no variant is an acronym form of AC, ACME CORP is the strictly most frequent
raw variant among the names of the cluster, yet build_canonical_map
canonicalizes the cluster to Acme Corp: frequency over the name occurrences
is not what the code consults (it deduplicates the names first). -/
theorem c1_counterexample :
    buildCanonicalMap [some "Acme Corp", some "ACME CORP", some "ACME CORP"] =
      [("Acme Corp", "Acme Corp"), ("ACME CORP", "Acme Corp")]
    ∧ clusterNames [some "Acme Corp", some "ACME CORP", some "ACME CORP"] "AC" =
      ["Acme Corp", "ACME CORP", "ACME CORP"]
    ∧ (["Acme Corp", "ACME CORP", "ACME CORP"].count "ACME CORP" = 2
        ∧ ["Acme Corp", "ACME CORP", "ACME CORP"].count "Acme Corp" = 1)
    ∧ stripSpacesUpper "Acme Corp" ≠ "AC"
    ∧ stripSpacesUpper "ACME CORP" ≠ "AC" := by
  refine ⟨by decide, by decide, ⟨by decide, by decide⟩, by decide, by decide⟩

/-- Claim C1, amended.  In a cluster with no acronym-equal variant the chosen
canonical is the first-encountered distinct raw variant of the cluster: the
map is built from the deduplicated name list, so every variant occurs exactly
once in the cluster and the most-common tie-break degenerates to
first-encountered order. -/
theorem c1_amended (names : List (Option String)) (key v : String) (vs : List String)
    (hmem : (key, v :: vs) ∈ clusters names)
    (hno : ∀ u ∈ v :: vs, stripSpacesUpper u ≠ key) :
    canonicalOf key (v :: vs) = v := by
  have hnd : (v :: vs).Nodup := clusters_variants_nodup names hmem
  have hf : (v :: vs).filter (fun u => stripSpacesUpper u = key) = [] := by
    rw [List.filter_eq_nil_iff]
    intro u hu
    simpa using hno u hu
  simp only [canonicalOf, hf]
  exact mostCommon_of_nodup hnd

/-- Claim C1, amended, witness at the counterexample input: the AC cluster of
that series canonicalizes to its first-encountered distinct variant. -/
theorem c1_amended_witness :
    canonicalOf "AC" ["Acme Corp", "ACME CORP"] = "Acme Corp" :=
  c1_amended [some "Acme Corp", some "ACME CORP", some "ACME CORP"]
    "AC" "Acme Corp" ["ACME CORP"] (by decide) (by decide)

/-- Claim C2.  In any cluster of build_canonical_map that contains a variant
whose spaces-stripped upper-casing equals the cluster key, the chosen
canonical is such a variant (regardless of how often any other variant
occurs). -/
theorem c2_acronym_priority (names : List (Option String)) (key : String)
    (variants : List String) (_hmem : (key, variants) ∈ clusters names)
    (v : String) (hv : v ∈ variants) (hacr : stripSpacesUpper v = key) :
    canonicalOf key variants ∈ variants ∧
      stripSpacesUpper (canonicalOf key variants) = key := by
  have hvf : v ∈ variants.filter (fun u => stripSpacesUpper u = key) :=
    List.mem_filter.mpr ⟨hv, by simpa using hacr⟩
  cases hfil : variants.filter (fun u => stripSpacesUpper u = key) with
  | nil => rw [hfil] at hvf; cases hvf
  | cons m ms =>
    have hm : m ∈ variants.filter (fun u => stripSpacesUpper u = key) := by
      rw [hfil]; exact List.mem_cons_self m ms
    obtain ⟨hm1, hm2⟩ := List.mem_filter.mp hm
    have hc : canonicalOf key variants = m := by simp only [canonicalOf, hfil]
    rw [hc]
    exact ⟨hm1, by simpa using hm2⟩

/-- Claim C2, witness: in the cluster of Department for Transport, DfT and
DFT (key DFT), the canonical is an acronym-equal variant even though the
acronym forms are not more frequent. -/
theorem c2_witness :
    canonicalOf "DFT" ["Department for Transport", "DfT", "DFT"] ∈
      ["Department for Transport", "DfT", "DFT"]
    ∧ stripSpacesUpper (canonicalOf "DFT" ["Department for Transport", "DfT", "DFT"]) =
      "DFT" :=
  c2_acronym_priority
    [some "Department for Transport", some "DfT", some "DFT"] "DFT"
    ["Department for Transport", "DfT", "DFT"] (by decide)
    "DfT" (by decide) (by decide)

/-! ## Evaluation lemmas for the rational model (kernel reduction of the
Mathlib rational instances is avoided; the character-level work is done by
decide and the arithmetic by norm_num) -/

lemma cleanCurrency_val (s : String) (m e : Nat)
    (h : parseParts (keepNumeric s) = some (m, e)) :
    cleanCurrency s = (m : ℚ) / (10 : ℚ) ^ e := by
  simp [cleanCurrency, parseDecimal, h]

lemma cleanCurrency_none (s : String)
    (h : parseParts (keepNumeric s) = none) :
    cleanCurrency s = 0 := by
  simp [cleanCurrency, parseDecimal, h]

lemma roundHalfEven_intCast (n : ℤ) : roundHalfEven (n : ℚ) = n := by
  simp only [roundHalfEven, Int.floor_intCast, sub_self]
  norm_num

lemma round2_of_mul_100 (q : ℚ) (n : ℤ) (h : q * 100 = (n : ℚ)) :
    round2 q = (n : ℚ) / 100 := by
  unfold round2
  rw [h, roundHalfEven_intCast]

/-! ## Branch lemmas for processContract -/

lemma processContract_low (materials : List Material) (c : Contract)
    (h : cleanCurrency c.valueAmount < MIN_SPEND) :
    processContract materials c =
      ⟨"SKIPPED_LOW_VALUE", none, none, none, none, none, none, none⟩ := by
  simp only [processContract, if_pos h]

lemma processContract_noref (materials : List Material) (c : Contract)
    (h1 : ¬ (cleanCurrency c.valueAmount < MIN_SPEND))
    (h2 : detectMaterial (c.title ++ " " ++ c.description) materials = none) :
    processContract materials c =
      ⟨"SKIPPED_NO_REF", none, none, none, none, none, none, none⟩ := by
  simp only [processContract, if_neg h1, h2]

lemma processContract_invalid (materials : List Material) (c : Contract) (m : Material)
    (h1 : ¬ (cleanCurrency c.valueAmount < MIN_SPEND))
    (h2 : detectMaterial (c.title ++ " " ++ c.description) materials = some m)
    (h3 : m.price ≤ 0 ∨ m.factor ≤ 0) :
    processContract materials c =
      ⟨"SKIPPED_INVALID_REF", none, none, none, none, none,
        some m.price, some m.factor⟩ := by
  simp only [processContract, if_neg h1, h2, if_pos h3]

lemma processContract_calc (materials : List Material) (c : Contract) (m : Material)
    (h1 : ¬ (cleanCurrency c.valueAmount < MIN_SPEND))
    (h2 : detectMaterial (c.title ++ " " ++ c.description) materials = some m)
    (h3 : ¬ (m.price ≤ 0 ∨ m.factor ≤ 0)) :
    processContract materials c =
      ⟨"CALCULATED",
        some (round2 (cleanCurrency c.valueAmount / m.price)),
        some (round2 (cleanCurrency c.valueAmount / m.price * m.factor / 1000)),
        some (round2 (cleanCurrency c.valueAmount / m.price * m.factor / 1000 * (3/4))),
        some (round2 (cleanCurrency c.valueAmount / m.price * m.factor / 1000 * (5/4))),
        some (riskTier (cleanCurrency c.valueAmount / m.price * m.factor / 1000)),
        none, none⟩ := by
  simp only [processContract, if_neg h1, h2, if_neg h3]

/-! ## Claim C5 — the material matcher -/

lemma detectScan_eq_find (t : String) :
    ∀ ref : List Material,
      detectScan t ref =
        (ref.filter (fun m => !(isGen m))).find? (fun m => rowMatchesB t m) := by
  intro ref
  induction ref with
  | nil => rfl
  | cons m rest ih =>
    by_cases hg : isGen m
    · simp [detectScan, hg, ih]
    · by_cases hr : rowMatchesB t m
      · simp [detectScan, hg, hr]
      · simp [detectScan, hg, hr, ih]

lemma filter_gen_eq (ref : List Material)
    (halign : ∀ m ∈ ref, pyUpperS m.materialId = "MAT_GEN" → m.materialId = "MAT_GEN") :
    ref.filter (fun m => !(isGen m)) = ref.filter (fun m => !(isGenExact m)) := by
  apply List.filter_congr
  intro m hm
  by_cases h : m.materialId = "MAT_GEN"
  · have e1 : isGen m = true := by
      simp only [isGen, h]
      decide
    have e2 : isGenExact m = true := by
      simp only [isGenExact, h]
      decide
    rw [e1, e2]
  · have h2 : ¬ (pyUpperS m.materialId = "MAT_GEN") := fun hu => h (halign m hm hu)
    have e1 : isGen m = false := by
      simpa [isGen] using h2
    have e2 : isGenExact m = false := by
      simpa [isGenExact] using h
    rw [e1, e2]

/-- Claim C5.  When the scan of detect_material is aligned (no row has a
material_id that upper-cases to MAT_GEN without being exactly MAT_GEN):
with exactly one generic sentinel row, detect_material returns the first
non-sentinel row (in table order) with a keyword substring hit against the
lower-cased text, falling back to the sentinel row when none hits; with no
sentinel row and no hit it returns none. -/
theorem c5_detect (text : String) (ref : List Material)
    (halign : ∀ m ∈ ref, pyUpperS m.materialId = "MAT_GEN" → m.materialId = "MAT_GEN") :
    (∀ g, ref.filter isGenExact = [g] →
      detectMaterial text ref = some ((specFirstMatch text ref).getD g))
    ∧ (ref.filter isGenExact = [] → specFirstMatch text ref = none →
      detectMaterial text ref = none) := by
  have hkey : detectScan (pyLowerS text) ref = specFirstMatch text ref := by
    rw [detectScan_eq_find]
    unfold specFirstMatch
    rw [filter_gen_eq ref halign]
  constructor
  · intro g hg
    cases hs : specFirstMatch text ref with
    | some m => simp [detectMaterial, hkey, hs]
    | none => simp [detectMaterial, hkey, hs, hg]
  · intro h0 hnone
    simp [detectMaterial, hkey, hnone, h0]

/-- A non-sentinel reference row used in the witnesses (price 50 GBP per
tonne, carbon factor 100 kg CO2e per tonne). -/
def matSteel : Material := ⟨"MAT_STEEL", "Structural Steel", "steel|rebar|girder", 50, 100⟩

/-- The generic sentinel reference row used in the witnesses. -/
def matGen : Material := ⟨"MAT_GEN", "General Construction", "", 80, 120⟩

/-- Claim C5, witness: on a two-row table with one sentinel, the matcher
returns the first keyword hit. -/
theorem c5_witness :
    detectMaterial "Steel girder bridge" [matSteel, matGen] = some matSteel :=
  ((c5_detect "Steel girder bridge" [matSteel, matGen] (by decide)).1
    matGen rfl).trans rfl

/-! ## Claims C4, C6, C7 — the risk engine -/

/-- Claim C4.  A contract passing the spend gate whose detected material has
strictly positive price and factor is emitted CALCULATED with
tonnes = spend / price, co2e = tonnes * factor / 1000, bounds at co2e * 0.75
and co2e * 1.25 (all rounded to 2 decimals), and the tier ladder CRITICAL at
1000, HIGH at 250, MEDIUM at 50, else LOW. -/
theorem c4_calculated (materials : List Material) (c : Contract) (m : Material)
    (h1 : MIN_SPEND ≤ cleanCurrency c.valueAmount)
    (h2 : detectMaterial (c.title ++ " " ++ c.description) materials = some m)
    (h3 : 0 < m.price) (h4 : 0 < m.factor) :
    processContract materials c =
      ⟨"CALCULATED",
        some (round2 (cleanCurrency c.valueAmount / m.price)),
        some (round2 (cleanCurrency c.valueAmount / m.price * m.factor / 1000)),
        some (round2 (cleanCurrency c.valueAmount / m.price * m.factor / 1000 * (3/4))),
        some (round2 (cleanCurrency c.valueAmount / m.price * m.factor / 1000 * (5/4))),
        some (riskTier (cleanCurrency c.valueAmount / m.price * m.factor / 1000)),
        none, none⟩
    ∧ (∀ x : ℚ,
        (1000 ≤ x → riskTier x = "CRITICAL")
        ∧ (250 ≤ x → x < 1000 → riskTier x = "HIGH")
        ∧ (50 ≤ x → x < 250 → riskTier x = "MEDIUM")
        ∧ (x < 50 → riskTier x = "LOW")) := by
  constructor
  · have hns : ¬ (cleanCurrency c.valueAmount < MIN_SPEND) := not_lt.mpr h1
    have hinv : ¬ (m.price ≤ 0 ∨ m.factor ≤ 0) := by
      push_neg
      exact ⟨h3, h4⟩
    exact processContract_calc materials c m hns h2 hinv
  · intro x
    refine ⟨?_, ?_, ?_, ?_⟩
    · intro hx
      rw [riskTier, if_pos hx]
    · intro hx hx2
      rw [riskTier, if_neg (not_le.mpr hx2), if_pos hx]
    · intro hx hx2
      rw [riskTier, if_neg (not_le.mpr (lt_trans hx2 (by norm_num))),
        if_neg (not_le.mpr hx2), if_pos hx]
    · intro hx
      rw [riskTier, if_neg (not_le.mpr (lt_trans hx (by norm_num))),
        if_neg (not_le.mpr (lt_trans hx (by norm_num))), if_neg (not_le.mpr hx)]

/-- The concrete contract of the worked example: spend 100000. -/
def contractSteel : Contract := ⟨"Steel girder bridge", "major steel works", "100000"⟩

/-- Claim C4, witness: spend 100000 at price 50 and factor 100 gives 2000
tonnes, 200 t CO2e, tier MEDIUM, bounds 150 and 250. -/
theorem c4_witness :
    processContract [matSteel, matGen] contractSteel =
      ⟨"CALCULATED", some 2000, some 200, some 150, some 250, some "MEDIUM",
        none, none⟩ := by
  have hs : cleanCurrency contractSteel.valueAmount = 100000 := by
    rw [show contractSteel.valueAmount = "100000" from rfl,
      cleanCurrency_val "100000" 100000 0 (by decide)]
    norm_num
  have h := (c4_calculated [matSteel, matGen] contractSteel matSteel
    (by rw [hs]; norm_num [MIN_SPEND]) rfl
    (by norm_num [matSteel]) (by norm_num [matSteel])).1
  rw [h, hs, show matSteel.price = 50 from rfl, show matSteel.factor = 100 from rfl]
  have e1 : round2 ((100000 : ℚ) / 50) = 2000 := by
    rw [round2_of_mul_100 _ 200000 (by norm_num)]
    norm_num
  have e2 : round2 ((100000 : ℚ) / 50 * 100 / 1000) = 200 := by
    rw [round2_of_mul_100 _ 20000 (by norm_num)]
    norm_num
  have e3 : round2 ((100000 : ℚ) / 50 * 100 / 1000 * (3/4)) = 150 := by
    rw [round2_of_mul_100 _ 15000 (by norm_num)]
    norm_num
  have e4 : round2 ((100000 : ℚ) / 50 * 100 / 1000 * (5/4)) = 250 := by
    rw [round2_of_mul_100 _ 25000 (by norm_num)]
    norm_num
  have e5 : riskTier ((100000 : ℚ) / 50 * 100 / 1000) = "MEDIUM" := by
    rw [show (100000 : ℚ) / 50 * 100 / 1000 = 200 by norm_num,
      riskTier, if_neg (by norm_num), if_neg (by norm_num), if_pos (by norm_num)]
  rw [e1, e2, e3, e4, e5]

/-- Claim C6.  The amount parser strips everything but digits and the dot and
resolves failures to 0; a contract whose parsed spend is strictly below
MIN_SPEND is emitted SKIPPED_LOW_VALUE; the amount text of the worked example
parses to 4999.5 and empty, NaN-rendered and digit-free amounts parse
to 0. -/
theorem c6_low_value (materials : List Material) (c : Contract)
    (h : cleanCurrency c.valueAmount < MIN_SPEND) :
    processContract materials c =
      ⟨"SKIPPED_LOW_VALUE", none, none, none, none, none, none, none⟩
    ∧ cleanCurrency "£4,999.50" = 4999.5
    ∧ cleanCurrency "" = 0
    ∧ cleanCurrency "nan" = 0
    ∧ cleanCurrency "TBC" = 0 := by
  refine ⟨?_, ?_, ?_, ?_, ?_⟩
  · simp only [processContract, if_pos h]
  · rw [cleanCurrency_val "£4,999.50" 499950 2 (by decide)]
    norm_num
  · exact cleanCurrency_none "" (by decide)
  · exact cleanCurrency_none "nan" (by decide)
  · exact cleanCurrency_none "TBC" (by decide)

/-- Claim C6, witness: the worked example amount is below the gate and the
record is skipped as low value. -/
theorem c6_witness :
    (cleanCurrency "£4,999.50" < MIN_SPEND)
    ∧ processContract [matSteel, matGen] ⟨"t", "d", "£4,999.50"⟩ =
      ⟨"SKIPPED_LOW_VALUE", none, none, none, none, none, none, none⟩ := by
  have hv : cleanCurrency "£4,999.50" < MIN_SPEND := by
    rw [cleanCurrency_val "£4,999.50" 499950 2 (by decide)]
    norm_num [MIN_SPEND]
  exact ⟨hv, (c6_low_value [matSteel, matGen] ⟨"t", "d", "£4,999.50"⟩ hv).1⟩

lemma round2_nonneg {q : ℚ} (h : 0 ≤ q) : 0 ≤ round2 q := by
  have h100 : (0 : ℚ) ≤ q * 100 := by positivity
  have hf : (0 : ℤ) ≤ ⌊q * 100⌋ := Int.floor_nonneg.mpr h100
  have hfq : (0 : ℚ) ≤ (⌊q * 100⌋ : ℚ) := by exact_mod_cast hf
  simp only [round2, roundHalfEven]
  split_ifs <;>
    · refine div_nonneg ?_ (by norm_num)
      push_cast
      linarith

lemma processContract_co2e_nonneg (materials : List Material) (c : Contract) {v : ℚ}
    (h : (processContract materials c).estCo2e = some v) : 0 ≤ v := by
  by_cases hlt : cleanCurrency c.valueAmount < MIN_SPEND
  · rw [processContract_low materials c hlt] at h
    exact absurd h (by simp)
  · cases hd : detectMaterial (c.title ++ " " ++ c.description) materials with
    | none =>
      rw [processContract_noref materials c hlt hd] at h
      exact absurd h (by simp)
    | some m =>
      by_cases hio : m.price ≤ 0 ∨ m.factor ≤ 0
      · rw [processContract_invalid materials c m hlt hd hio] at h
        exact absurd h (by simp)
      · rw [processContract_calc materials c m hlt hd hio] at h
        have h2 : round2 (cleanCurrency c.valueAmount / m.price * m.factor / 1000) = v := by
          simpa using h
        push_neg at hio
        obtain ⟨hp, hfa⟩ := hio
        have h5 : MIN_SPEND = 5000 := rfl
        have hspend : (0 : ℚ) ≤ cleanCurrency c.valueAmount := by
          have h6 := not_lt.mp hlt
          rw [h5] at h6
          linarith
        rw [← h2]
        refine round2_nonneg ?_
        have ht : (0 : ℚ) ≤ cleanCurrency c.valueAmount / m.price :=
          div_nonneg hspend hp.le
        have hmf : (0 : ℚ) ≤ cleanCurrency c.valueAmount / m.price * m.factor :=
          mul_nonneg ht hfa.le
        exact div_nonneg hmf (by norm_num)

/-- Claim C7.  The engine output is ordered by the fill-value sort key
(estimated CO2e, missing filled by -1) descending, and every record without a
computed CO2e appears after every record with one. -/
theorem c7_ordering (materials : List Material) (contracts : List Contract) :
    (runPqeEngine materials contracts).Pairwise (fun a b => keyOf b ≤ keyOf a)
    ∧ (runPqeEngine materials contracts).Pairwise
        (fun a b => a.estCo2e = none → b.estCo2e = none) := by
  have hs : (runPqeEngine materials contracts).Pairwise pqeOrder :=
    List.sorted_insertionSort pqeOrder (contracts.map (processContract materials))
  refine ⟨hs, ?_⟩
  have hmem : ∀ r ∈ runPqeEngine materials contracts, ∀ v, r.estCo2e = some v → 0 ≤ v := by
    intro r hr v hv
    have hr2 : r ∈ contracts.map (processContract materials) :=
      (List.perm_insertionSort pqeOrder _).mem_iff.mp hr
    obtain ⟨c, _, rfl⟩ := List.mem_map.mp hr2
    exact processContract_co2e_nonneg materials c hv
  refine hs.imp_of_mem ?_
  intro a b ha hb hab hnone
  cases hb' : b.estCo2e with
  | none => rfl
  | some v =>
    exfalso
    have h0 : 0 ≤ v := hmem b hb v hb'
    have hka : keyOf a = -1 := by simp [keyOf, hnone]
    have hkb : keyOf b = v := by simp [keyOf, hb']
    have hab2 : keyOf b ≤ keyOf a := hab
    rw [hka, hkb] at hab2
    linarith

/-! ## Claims C3 and C9 — the ingestion loop -/

/-- Run invariant of the ingestion state: every accumulated ocid is marked
seen, the accumulated ocids are pairwise distinct, and every accumulated
record carries a known, accepted classification code. -/
def IngestInv (st : List String × List Record) : Prop :=
  (∀ rec ∈ st.2, rec.ocid ∈ st.1)
  ∧ (st.2.map Record.ocid).Nodup
  ∧ (∀ rec ∈ st.2, rec.cpv ≠ "UNKNOWN" ∧ cpvAccepted rec.cpv = true)

lemma stepRelease_inv (st : List String × List Record) (r : Release)
    (h : IngestInv st) : IngestInv (stepRelease st r) := by
  obtain ⟨h1, h2, h3⟩ := h
  cases hoc : r.ocid with
  | none =>
    rw [show stepRelease st r = st from by simp only [stepRelease, hoc]]
    exact ⟨h1, h2, h3⟩
  | some o =>
    simp only [stepRelease, hoc]
    by_cases ho : o = ""
    · rw [if_pos ho]; exact ⟨h1, h2, h3⟩
    · rw [if_neg ho]
      by_cases hseen : o ∈ st.1
      · rw [if_pos hseen]; exact ⟨h1, h2, h3⟩
      · rw [if_neg hseen]
        by_cases hunk : extractCpv r = "UNKNOWN"
        · rw [if_pos hunk]; exact ⟨h1, h2, h3⟩
        · rw [if_neg hunk]
          cases hacc : cpvAccepted (extractCpv r) with
          | false =>
            rw [if_pos (by simp)]
            exact ⟨h1, h2, h3⟩
          | true =>
            rw [if_neg (by simp)]
            refine ⟨?_, ?_, ?_⟩
            · intro rec hrec
              rcases List.mem_append.mp hrec with hrec | hrec
              · exact List.mem_cons_of_mem _ (h1 rec hrec)
              · rcases List.mem_singleton.mp hrec with rfl
                exact List.mem_cons_self _ _
            · rw [List.map_append]
              refine List.Nodup.append h2 (by simp) ?_
              intro x hx hx2
              simp at hx2
              subst hx2
              obtain ⟨rec, hrec, hrecocid⟩ := List.mem_map.mp hx
              exact hseen (hrecocid ▸ h1 rec hrec)
            · intro rec hrec
              rcases List.mem_append.mp hrec with hrec | hrec
              · exact h3 rec hrec
              · rcases List.mem_singleton.mp hrec with rfl
                exact ⟨hunk, hacc⟩

lemma foldRel_inv :
    ∀ (rels : List Release) (st), IngestInv st → IngestInv (rels.foldl stepRelease st) := by
  intro rels
  induction rels with
  | nil => intro st h; exact h
  | cons r rs ih => intro st h; exact ih _ (stepRelease_inv st r h)

lemma ingestState_inv (pages : List (List Release)) : IngestInv (ingestState pages) := by
  have hfold : ∀ (ps : List (List Release)) (st), IngestInv st →
      IngestInv (ps.foldl (fun st page => page.foldl stepRelease st) st) := by
    intro ps
    induction ps with
    | nil => intro st h; exact h
    | cons p ps ih => intro st h; exact ih _ (foldRel_inv p st h)
  exact hfold pages ([], []) ⟨by simp, by simp, by simp⟩

/-- Claim C3.  A run accumulates each ocid at most once: the list of
accumulated ocids is duplicate-free whatever the page sequence (repeats on
later pages included), and a release with a missing (or empty) ocid, or with
an ocid already marked seen (holding in particular for every
already-accumulated ocid, by the first invariant), leaves the state unchanged
rather than raising. -/
theorem c3_dedup (pages : List (List Release)) :
    ((runIngest pages).map Record.ocid).Nodup
    ∧ (∀ rec ∈ runIngest pages, rec.ocid ∈ (ingestState pages).1)
    ∧ (∀ (st : List String × List Record) (r : Release),
        r.ocid = none → stepRelease st r = st)
    ∧ (∀ (st : List String × List Record) (r : Release),
        r.ocid = some "" → stepRelease st r = st)
    ∧ (∀ (st : List String × List Record) (r : Release) (o : String),
        r.ocid = some o → o ∈ st.1 → stepRelease st r = st) := by
  obtain ⟨h1, h2, _⟩ := ingestState_inv pages
  refine ⟨h2, h1, ?_, ?_, ?_⟩
  · intro st r hr
    simp only [stepRelease, hr]
  · intro st r hr
    simp [stepRelease, hr]
  · intro st r o hr ho
    simp only [stepRelease, hr]
    by_cases he : o = ""
    · rw [if_pos he]
    · rw [if_neg he, if_pos ho]

/-- A release with an accepted construction code (45210000-2), used in the
witnesses. -/
def rel45 : Release :=
  ⟨some "ocid-1", some (ClassField.dictC (some "45210000-2")), none, none, none⟩

/-- A second release carrying the same ocid on a later page, used in the
witnesses. -/
def rel45b : Release :=
  ⟨some "ocid-1", some (ClassField.dictC (some "45300000")), none, none, none⟩

/-- A release with a rejected code (98000000), used in the witnesses. -/
def rel98 : Release :=
  ⟨some "ocid-98", some (ClassField.dictC (some "98000000")), none, none, none⟩

/-- Claim C3, witness: a two-page run repeating ocid-1 keeps its ocid list
duplicate-free, and the step on the repeated release is the identity. -/
theorem c3_witness :
    ((runIngest [[rel45], [rel45b]]).map Record.ocid).Nodup
    ∧ stepRelease (["ocid-1"], [⟨"ocid-1", "452100002", 0, "GBP"⟩]) rel45b =
      (["ocid-1"], [⟨"ocid-1", "452100002", 0, "GBP"⟩]) :=
  ⟨(c3_dedup [[rel45], [rel45b]]).1,
   (c3_dedup [[rel45], [rel45b]]).2.2.2.2 _ rel45b "ocid-1" rfl (by decide)⟩

/-- Claim C9.  Every accumulated record carries a known code that starts with
an accepted prefix; the normalization keeps exactly the digits of the raw
code (UNKNOWN when absent or digit-free); 45210000-2 normalizes to 452100002
and is accepted, 98000000 is rejected and its release is never stored. -/
theorem c9_cpv (pages : List (List Release)) :
    (∀ rec ∈ runIngest pages, rec.cpv ≠ "UNKNOWN" ∧ cpvAccepted rec.cpv = true)
    ∧ (∀ s : String, normalizeCpv (some s) =
        if s.toList.filter Char.isDigit = [] then "UNKNOWN"
        else String.mk (s.toList.filter Char.isDigit))
    ∧ normalizeCpv none = "UNKNOWN"
    ∧ normalizeCpv (some "45210000-2") = "452100002"
    ∧ cpvAccepted "452100002" = true
    ∧ normalizeCpv (some "98000000") = "98000000"
    ∧ cpvAccepted "98000000" = false
    ∧ extractCpv rel98 = "98000000"
    ∧ runIngest [[rel98]] = []
    ∧ extractCpv rel45 = "452100002"
    ∧ runIngest [[rel45]] = [⟨"ocid-1", "452100002", 0, "GBP"⟩] := by
  refine ⟨(ingestState_inv pages).2.2, ?_, rfl, by decide, by decide, by decide,
    by decide, by decide, rfl, by decide, rfl⟩
  intro s
  by_cases hs : s = ""
  · subst hs; decide
  · simp [normalizeCpv, hs]

/-- Claim C9, witness: the record accumulated from the 45210000-2 release
satisfies the stored-code invariant. -/
theorem c9_witness :
    (Record.mk "ocid-1" "452100002" 0 "GBP").cpv ≠ "UNKNOWN"
    ∧ cpvAccepted (Record.mk "ocid-1" "452100002" 0 "GBP").cpv = true :=
  (c9_cpv [[rel45]]).1 ⟨"ocid-1", "452100002", 0, "GBP"⟩
    (List.mem_cons_self _ _)

/-! ## Claim C8 — retry exhaustion in safe_get -/

lemma safeGetAux_all_fail {α : Type} (outcome : Nat → Option α) (backoff : Nat) :
    ∀ (n i : Nat), (∀ j, j < n → outcome (i + j) = none) →
      safeGetAux outcome backoff n i =
        ⟨none, n, (List.range n).map (fun j => backoff * (i + j + 1))⟩ := by
  intro n
  induction n with
  | zero => intro i _; rfl
  | succ n ih =>
    intro i h
    have h0 : outcome i = none := by simpa using h 0 (Nat.succ_pos n)
    have hrec := ih (i + 1) (fun j hj => by
      have h2 := h (j + 1) (Nat.succ_lt_succ hj)
      have h3 : i + (j + 1) = i + 1 + j := by omega
      rwa [h3] at h2)
    simp only [safeGetAux, h0, hrec]
    have hsleeps :
        backoff * (i + 1) :: (List.range n).map (fun j => backoff * (i + 1 + j + 1))
          = (List.range (n + 1)).map (fun j => backoff * (i + j + 1)) := by
      rw [List.range_succ_eq_map, List.map_cons, List.map_map]
      refine congrArg₂ List.cons ?_ ?_
      · show backoff * (i + 1) = backoff * (i + 0 + 1)
        norm_num
      · refine (List.map_congr_left ?_)
        intro j _
        show backoff * (i + 1 + j + 1) = backoff * (i + (j + 1) + 1)
        have e : i + 1 + j + 1 = i + (j + 1) + 1 := by omega
        rw [e]
    rw [hsleeps]

/-- Claim C8.  When every one of the MAX_RETRIES (5) attempts fails with a
transport exception, safe_get makes exactly 5 attempts, sleeps
backoff * attempt-number seconds after each failure, and ends by raising
(result none) instead of returning a response or looping on. -/
theorem c8_retry_exhaustion {α : Type} (outcome : Nat → Option α) (backoff : Nat)
    (h : ∀ i, i < MAX_RETRIES → outcome i = none) :
    safeGet outcome backoff MAX_RETRIES =
      ⟨none, MAX_RETRIES,
        [backoff * 1, backoff * 2, backoff * 3, backoff * 4, backoff * 5]⟩ := by
  have happ := safeGetAux_all_fail outcome backoff MAX_RETRIES 0
    (fun j hj => by simpa using h j hj)
  unfold safeGet
  rw [happ]
  have hlist : (List.range MAX_RETRIES).map (fun j => backoff * (0 + j + 1))
      = [backoff * 1, backoff * 2, backoff * 3, backoff * 4, backoff * 5] := by
    rw [show MAX_RETRIES = 5 from rfl]
    simp [List.range_succ]
  rw [hlist]

/-- Claim C8, witness: with backoff 2 (the default of the source), all five
attempts failing yields the sleep sequence 2, 4, 6, 8, 10 and a raise. -/
theorem c8_witness :
    safeGet (fun _ => (none : Option Nat)) 2 MAX_RETRIES =
      ⟨none, MAX_RETRIES, [2, 4, 6, 8, 10]⟩ := by
  have h := c8_retry_exhaustion (fun _ => (none : Option Nat)) 2 (fun _ _ => rfl)
  rw [h]

/-! ## Claim C10 — the cleaned table keeps only positive amounts -/

/-- Claim C10.  Every row of the cleaned table has a strictly positive parsed
value: a missing amount parses to 0, an unparsable amount parses to 0, and a
single-row table is kept exactly when its parsed value is positive (so a
zero-resolved row is dropped from the table entirely rather than being given
a skip status). -/
theorem c10_positive (rows : List CsvRow) :
    (∀ r ∈ cleanRun rows, 0 < r.valueAmount)
    ∧ cleanFinancials none = 0
    ∧ (∀ s, parseDecimal (keepNumeric s) = none → cleanFinancials (some s) = 0)
    ∧ (∀ row : CsvRow, cleanRun [row] =
        if 0 < cleanFinancials row.valueAmount then
          [⟨row.ocid, cleanFinancials row.valueAmount⟩] else []) := by
  refine ⟨?_, rfl, ?_, ?_⟩
  · intro r hr
    exact of_decide_eq_true (List.mem_filter.mp hr).2
  · intro s h
    simp [cleanFinancials, cleanCurrency, h]
  · intro row
    by_cases h : 0 < cleanFinancials row.valueAmount
    · simp [cleanRun, dedupByOcidAux, h]
    · simp [cleanRun, dedupByOcidAux, h]

/-- Claim C10, witness: a 7000 GBP row survives cleaning with its positive
parsed value. -/
theorem c10_witness :
    cleanRun [⟨"b", some "£7,000"⟩] = [⟨"b", (7000 : ℚ)⟩]
    ∧ (0 : ℚ) < 7000 := by
  have hval : cleanFinancials (some "£7,000") = 7000 := by
    show cleanCurrency "£7,000" = 7000
    rw [cleanCurrency_val "£7,000" 7000 0 (by decide)]
    norm_num
  have h4 := (c10_positive [⟨"b", some "£7,000"⟩]).2.2.2 ⟨"b", some "£7,000"⟩
  simp only [hval] at h4
  rw [if_pos (by norm_num)] at h4
  refine ⟨h4, ?_⟩
  exact (c10_positive [⟨"b", some "£7,000"⟩]).1 ⟨"b", 7000⟩
    (by rw [h4]; exact List.mem_cons_self _ _)

end CivilWorks
